import Mathlib

/-!
Verification of the hlist2 crate: a compile-time heterogeneous list library.

The Rust crate defines `Nil` (empty list) and `Cons<Head, Tail>` (head value
paired with a tail list), with every operation given by a trait implemented
once for `Nil` (base case) and once for `Cons` (inductive case).  The sealed
`HList` trait means the only list shapes are finite chains of `Cons` ending
in `Nil`, so a list type is faithfully described by the Lean value
`τs : List Type` of its element types, and a list value of that type by an
element of `HListT τs` below (`Nil ↦ PUnit.unit`, `Cons(h, t) ↦ (h, t)`).
Each trait method becomes a Lean function by structural recursion on the
type-list index, following the corresponding pair of trait impls verbatim.
Rust immutable references `&T` are modelled by the referenced values.
-/

namespace Hlist2

/-- Type of heterogeneous list values whose element types are `τs`.
`Nil` is the empty struct (a unit), `Cons<Head, Tail>` is a pair struct. -/
def HListT : List Type → Type
  | [] => PUnit
  | τ :: τs => τ × HListT τs

/-- The value `Nil`. -/
def hnil : HListT [] := PUnit.unit

/-- Runtime length, from `impl HList for Nil` (`Self::LEN`, which is `0`)
and `impl HList for Cons` (`1 + tail.len()`) in `src/lib.rs`. -/
def len : (τs : List Type) → HListT τs → Nat
  | [], _ => 0
  | _ :: τs, (_, t) => 1 + len τs t

/-- Compile-time length constant, from `impl Len for Nil` (`LEN = 0`) and
`impl Len for Cons` (`LEN = 1 + Tail::LEN`) in `src/lib.rs`.  It depends
only on the list type, not on the value. -/
def LEN : List Type → Nat
  | [] => 0
  | _ :: τs => 1 + LEN τs

/-- Output type of `Rewind<Done>`, from `src/ops/reverse.rs`:
for `Nil` the output is `Done`, for `Cons<Next, Tail>` the output is
the output of `Tail: Rewind<Cons<Next, Done>>`. -/
def rewindT : List Type → List Type → List Type
  | [], σs => σs
  | τ :: τs, σs => rewindT τs (τ :: σs)

/-- The `Rewind` accumulator helper from `src/ops/reverse.rs`:
`Nil.rewind(done) = done`, `Cons(next, tail).rewind(done) =
tail.rewind(Cons(next, done))`. -/
def rewind : (τs σs : List Type) → HListT τs → HListT σs → HListT (rewindT τs σs)
  | [], _, _, done => done
  | τ :: τs, σs, (next, tail), done => rewind τs (τ :: σs) tail (next, done)

/-- `Reverse` from `src/ops/reverse.rs`: `self.rewind(Nil)`. -/
def hreverse (τs : List Type) (l : HListT τs) : HListT (rewindT τs []) :=
  rewind τs [] l hnil

/-- Output type of `Append`, from `src/ops/append.rs`:
`Nil::Output<T> = Cons<T, Nil>`, `Cons<Head, Tail>::Output<T> =
Cons<Head, Tail::Output<T>>`. -/
def appT : List Type → Type → List Type
  | [], α => [α]
  | τ :: τs, α => τ :: appT τs α

/-- `Append` from `src/ops/append.rs`: `Nil.append(v) = Cons(v, Nil)`,
`Cons(head, tail).append(v) = Cons(head, tail.append(v))`. -/
def happend : (τs : List Type) → (α : Type) → HListT τs → α → HListT (appT τs α)
  | [], _, nil, value => (value, nil)
  | _ :: τs, α, (head, tail), value => (head, happend τs α tail value)

/-- `Pop` from `src/ops/pop.rs`.  The trait is implemented for
`Cons<Head, Nil>` (result `(head, Nil)`) and for `Cons<Head, Tail: Pop>`
(pop the tail, then `prepend` the head onto the remainder); there is no
implementation for `Nil`, modelled here by `none`.  The associated types
`Last` and `Remainder` are modelled by sigma packing. -/
def hpop : (τs : List Type) → HListT τs →
    Option ((Σ α : Type, α) × (Σ σs : List Type, HListT σs))
  | [], _ => none
  | [τ], (head, _) => some (⟨τ, head⟩, ⟨[], hnil⟩)
  | τ :: τ2 :: τs, (head, tail) =>
    match hpop (τ2 :: τs) tail with
    | some (elem, ⟨σs, list⟩) => some (elem, ⟨τ :: σs, (head, list)⟩)
    | none => none

/-- Output type of `Extend`, from `src/ops/extend.rs`:
`Nil::Output<T> = T`, `Cons<Head, Tail>::Output<T> = Cons<Head, Tail::Output<T>>`. -/
def extT : List Type → List Type → List Type
  | [], σs => σs
  | τ :: τs, σs => τ :: extT τs σs

/-- `Extend` from `src/ops/extend.rs`: `Nil.extend(list) = list`,
`Cons(head, tail).extend(list) = Cons(head, tail.extend(list))`. -/
def hextend : (τs σs : List Type) → HListT τs → HListT σs → HListT (extT τs σs)
  | [], _, _, list => list
  | _ :: τs, σs, (head, tail), list => (head, hextend τs σs tail list)

/-- Element types of an outer heterogeneous list whose elements are
themselves heterogeneous lists with shapes `ss`. -/
def nestT : List (List Type) → List Type
  | [] => []
  | τs :: ss => HListT τs :: nestT ss

/-- Output type of `Flatten`, from `src/ops/flatten.rs`:
`Nil::Output = Nil`, `Cons<Head, Tail>::Output = Head::Output<Tail::Output>`
where the head is extended with the flattened tail. -/
def flatT : List (List Type) → List Type
  | [] => []
  | τs :: ss => extT τs (flatT ss)

/-- `Flatten` from `src/ops/flatten.rs`: `Nil.flatten() = Nil`,
`Cons(head, tail).flatten() = head.extend(tail.flatten())`. -/
def hflatten : (ss : List (List Type)) → HListT (nestT ss) → HListT (flatT ss)
  | [], _ => hnil
  | τs :: ss, (head, tail) => hextend τs (flatT ss) head (hflatten ss tail)

/-- Output type of `Zip`, from `src/ops/zip.rs`:
`Nil: Zip<Nil>` with output `Nil`; `Cons<Head, Tail>: Zip<Cons<OHead, OTail>>`
with output `Cons<(Head, OHead), Tail::Output>`.  The mismatched-shape cases
do not type-check in Rust; they are totalised to `[]` here and never appear
in any theorem. -/
def zipT : List Type → List Type → List Type
  | τ :: τs, σ :: σs => (τ × σ) :: zipT τs σs
  | _, _ => []

/-- `Zip` from `src/ops/zip.rs`: `Nil.zip(Nil) = Nil`,
`Cons(h, t).zip(Cons(oh, ot)) = Cons((h, oh), t.zip(ot))`. -/
def hzip : (τs σs : List Type) → HListT τs → HListT σs → HListT (zipT τs σs)
  | _ :: τs, _ :: σs, (head, tail), (ohead, otail) =>
    ((head, ohead), hzip τs σs tail otail)
  | [], _, _, _ => hnil
  | _ :: _, [], _, _ => hnil

/-- First components of a list of pair types, matching the `Unzip::First`
associated type of `src/ops/unzip.rs` (`Cons<Head::First, Tail::First>`). -/
def fstT : List (Type × Type) → List Type
  | [] => []
  | (α, _) :: ps => α :: fstT ps

/-- Second components of a list of pair types, matching `Unzip::Second`. -/
def sndT : List (Type × Type) → List Type
  | [] => []
  | (_, β) :: ps => β :: sndT ps

/-- Element types of a heterogeneous list of pairs: each element implements
the `Pair` trait of `src/ops/pair.rs`, which is implemented for 2-tuples. -/
def pairedT : List (Type × Type) → List Type
  | [] => []
  | (α, β) :: ps => (α × β) :: pairedT ps

/-- `Unzip` from `src/ops/unzip.rs`: `Nil.unzip() = (Nil, Nil)`;
for a cons, destruct the head pair, unzip the tail, and cons the parts. -/
def hunzip : (ps : List (Type × Type)) → HListT (pairedT ps) →
    HListT (fstT ps) × HListT (sndT ps)
  | [], _ => (hnil, hnil)
  | (_, _) :: ps, (head, tail) =>
    ((head.1, (hunzip ps tail).1), (head.2, (hunzip ps tail).2))

/-- Element types of the folder heterogeneous list used by the
`Fold`/`RFold` impls with a cons folder, from `src/ops/fold/left.rs` and
`src/ops/fold/right.rs`: each per-position function has type
`FnOnce(A, Head) -> A`. -/
def fldT (A : Type) : List Type → List Type
  | [] => []
  | τ :: τs => (A → τ → A) :: fldT A τs

/-- Left fold with a heterogeneous list of per-position functions, from
`src/ops/fold/left.rs`: `Nil.fold(init, _) = init`;
`Cons(head, tail).fold(init, Cons(f, fs)) = tail.fold(f(init, head), fs)`. -/
def hfold (A : Type) : (τs : List Type) → HListT τs → A → HListT (fldT A τs) → A
  | [], _, init, _ => init
  | _ :: τs, (head, tail), init, (f, fs) => hfold A τs tail (f init head) fs

/-- Right fold with a heterogeneous list of per-position functions, from
`src/ops/fold/right.rs`: `Nil.rfold(init, _) = init`;
`Cons(head, tail).rfold(init, Cons(f, fs)) = f(tail.rfold(init, fs), head)`
(recurse to the end first, then apply while unwinding). -/
def hrfold (A : Type) : (τs : List Type) → HListT τs → A → HListT (fldT A τs) → A
  | [], _, init, _ => init
  | _ :: τs, (head, tail), init, (f, fs) => f (hrfold A τs tail init fs) head

/-- `FromIterator` from `src/iter.rs`, for the homogeneous target shape of
`n` slots of element type `A` (the `Cons` impl requires
`Tail: FromIterator<Head>`, so every slot has the same type).  The iterator
is modelled by the list of elements it yields, and a panic by an error
carrying the panic message.  The `Nil` impl panics with
"too many elements in the iterator" when the iterator still has an element;
the `Cons` impl takes the next element, panicking with
"not enough elements in the iterator" when the iterator is exhausted, and
collects the rest into the tail. -/
def fromIter (A : Type) : (n : Nat) → List A → Except String (HListT (List.replicate n A))
  | 0, [] => Except.ok hnil
  | 0, _ :: _ => Except.error "too many elements in the iterator"
  | _ + 1, [] => Except.error "not enough elements in the iterator"
  | n + 1, x :: xs => (fromIter A n xs).map fun tail => (x, tail)

/-- The homogeneous heterogeneous list holding the elements of `l` in order. -/
def ofList (A : Type) : (l : List A) → HListT (List.replicate l.length A)
  | [] => hnil
  | x :: xs => (x, ofList A xs)

/-- Element type at position `i`, matching which `Get`/`Remove` impl applies
for the index `Here` (position 0, the head) or `There<I>` (descend into the
tail).  An out-of-range position does not type-check in Rust; it is
totalised to `PUnit` here and never appears in any theorem. -/
def typeAtD : (τs : List Type) → Nat → Type
  | [], _ => PUnit
  | τ :: _, 0 => τ
  | _ :: τs, i + 1 => typeAtD τs i

/-- Remainder types after removing the element at position `i`, matching the
`Remove::Remainder` associated type of `src/ops/remove.rs`: removing at
`Here` leaves the tail; removing at `There<I>` leaves the head prepended to
the remainder of the tail. -/
def removeT : (τs : List Type) → Nat → List Type
  | [], _ => []
  | _ :: τs, 0 => τs
  | τ :: τs, i + 1 => τ :: removeT τs i

/-- `Remove` from `src/ops/remove.rs`, with the `Here`/`There` index encoded
as the natural number it denotes: at `Here`, split off the head; at
`There<I>`, remove from the tail and `prepend` the head to the remainder. -/
def hremove : (τs : List Type) → (i : Nat) → HListT τs →
    typeAtD τs i × HListT (removeT τs i)
  | [], _, _ => (PUnit.unit, hnil)
  | _ :: _, 0, (head, tail) => (head, tail)
  | _ :: τs, i + 1, (head, tail) =>
    ((hremove τs i tail).1, (head, (hremove τs i tail).2))

/-- Types removed by `RemoveMany` for a batch index `is`, in request order. -/
def manyT : (is : List Nat) → List Type → List Type
  | [], _ => []
  | i :: is, τs => typeAtD τs i :: manyT is (removeT τs i)

/-- Remainder types after `RemoveMany` has threaded `is` through the list. -/
def manyRemT : (is : List Nat) → List Type → List Type
  | [], τs => τs
  | i :: is, τs => manyRemT is (removeT τs i)

/-- `RemoveMany` from `src/ops/remove_many.rs`: the base impl returns
`(Nil, self)`; the cons impl removes one element by its index, threads the
shrinking remainder through the removal of the remaining elements, and
conses the removed element onto the front of the result list. -/
def hremoveMany : (is : List Nat) → (τs : List Type) → HListT τs →
    HListT (manyT is τs) × HListT (manyRemT is τs)
  | [], _, l => (hnil, l)
  | i :: is, τs, l =>
    (((hremove τs i l).1, (hremoveMany is (removeT τs i) (hremove τs i l).2).1),
      (hremoveMany is (removeT τs i) (hremove τs i l).2).2)

/-- `GetMany` from `src/ops/get_many.rs`: convert the list to a list of
references with `to_ref`, `remove_many` from it, and keep the removed part.
References are modelled by the referenced values, so `to_ref` is the
identity here and the borrowed source list is untouched by construction. -/
def hgetMany (is : List Nat) (τs : List Type) (l : HListT τs) : HListT (manyT is τs) :=
  (hremoveMany is τs l).1

/-- Positional indices from `src/ops/index/types.rs`: `Here` points at the
head, `There<T>` descends one level into the tail.  Both are zero-sized in
Rust; the arithmetic below is the type-level arithmetic of
`src/ops/index/ops.rs` read off on this value-level copy. -/
inductive Idx : Type
  | here : Idx
  | there : Idx → Idx
deriving DecidableEq

/-- Nesting depth of an index: `Here` encodes `0`, `There<T>` encodes `T + 1`. -/
def depth : Idx → Nat
  | .here => 0
  | .there t => depth t + 1

/-- `Add` from `src/ops/index/ops.rs`: `Here + rhs = rhs` and
`There<U> + T = There<U + T>`. -/
def idxAdd : Idx → Idx → Idx
  | .here, rhs => rhs
  | .there u, rhs => .there (idxAdd u rhs)

/-- `Sub` from `src/ops/index/ops.rs`: `Here - Here = Here`,
`There<T> - Here = There<T>`, and `There<U> - There<T> = U - T`.  There is
no impl of `Sub<There<T>> for Here` (negative indices are rejected at
compile time), modelled here by `none`. -/
def idxSub : Idx → Idx → Option Idx
  | a, .here => some a
  | .there u, .there t => idxSub u t
  | .here, .there _ => none

/-- `PartialOrd` from `src/ops/index/ops.rs`: `Here` equals `Here` (derived
`Ord`), `Here` is less than every `There`, every `There` is greater than
`Here`, and two `There` indices compare as their decrements. -/
def idxPartialCmp : Idx → Idx → Option Ordering
  | .here, .here => some .eq
  | .here, .there _ => some .lt
  | .there _, .here => some .gt
  | .there u, .there t => idxPartialCmp u t

/-- Erasure of a heterogeneous list to a plain list of type-packed values.
Two lists of the same shape are equal iff their erasures are, which turns
heterogeneous equalities into ordinary list equalities. -/
def toSig : (τs : List Type) → HListT τs → List (Σ α : Type, α)
  | [], _ => []
  | τ :: τs, (head, tail) => ⟨τ, head⟩ :: toSig τs tail

/-- A two-element integer row, the innermost list shape of the three-level
flatten example. -/
def row (a b : ℤ) : HListT [ℤ, ℤ] := (a, (b, hnil))

/-- The type of a two-element integer row. -/
def rowT : Type := HListT [ℤ, ℤ]

/-- Shape of the three-level nested list
`[[[0,1],[2,3]], [[4,5],[6,7]], [[8,9]]]`: the outer list has three
elements, which are lists of two, two and one row respectively. -/
def d3Shape : List (List Type) := [[rowT, rowT], [rowT, rowT], [rowT]]

/-- Shape of the two-level list of five rows. -/
def d2Shape : List (List Type) := [[ℤ, ℤ], [ℤ, ℤ], [ℤ, ℤ], [ℤ, ℤ], [ℤ, ℤ]]

/-- The three-level nested list `[[[0,1],[2,3]], [[4,5],[6,7]], [[8,9]]]`. -/
def d3 : HListT (nestT d3Shape) :=
  ((row 0 1, (row 2 3, hnil)),
    ((row 4 5, (row 6 7, hnil)),
      ((row 8 9, hnil), hnil)))

/-- The two-level list `[[0,1],[2,3],[4,5],[6,7],[8,9]]` of five rows. -/
def d2 : HListT (nestT d2Shape) :=
  (row 0 1, (row 2 3, (row 4 5, (row 6 7, (row 8 9, hnil)))))

/-- The fully linear list `[0,1,2,3,4,5,6,7,8,9]`. -/
def d1 : HListT [ℤ, ℤ, ℤ, ℤ, ℤ, ℤ, ℤ, ℤ, ℤ, ℤ] :=
  (0, (1, (2, (3, (4, (5, (6, (7, (8, (9, hnil))))))))))

/-- The list `[1, false, 42.0]` of the fold scenario.  The `f32` values of
the scenario are small integers on which `f32` arithmetic and comparison
are exact, so they are modelled by rationals. -/
def foldList : HListT [ℤ, Bool, ℚ] := (1, (false, (42, hnil)))

/-- The per-position folder functions of the fold scenario: integer addition
into the accumulator, the conditional boolean operation
`if !b && acc > 42.0 then 9000.0 else 0.0`, and rational addition. -/
def foldFns : HListT (fldT ℚ [ℤ, Bool, ℚ]) :=
  (fun acc i => (i : ℚ) + acc,
    (fun acc b => if b = false ∧ (42 : ℚ) < acc then (9000 : ℚ) else 0,
      (fun acc f => f + acc, hnil)))

/-- The list `[1, 2.0, true, "hello world"]` of the `get_many` scenario,
with `f32` modelled by the rationals and `&str` by strings. -/
def srcList : HListT [ℤ, ℚ, Bool, String] :=
  (1, (2, (true, ("hello world", hnil))))

/-- Two heterogeneous lists of the same shape with the same erasure are equal. -/
theorem toSig_inj : ∀ (τs : List Type) (l1 l2 : HListT τs),
    toSig τs l1 = toSig τs l2 → l1 = l2
  | [], _, _, _ => rfl
  | τ :: τs, (h1, t1), (h2, t2), h => by
    simp only [toSig, List.cons.injEq, Sigma.mk.inj_iff, heq_eq_eq, true_and] at h
    obtain ⟨hh, ht⟩ := h
    subst hh
    rw [toSig_inj τs t1 t2 ht]

/-- Heterogeneous equality of lists over propositionally equal shapes
follows from equality of their erasures. -/
theorem heq_of_toSig (τs σs : List Type) (h : τs = σs) (l1 : HListT τs)
    (l2 : HListT σs) (hs : toSig τs l1 = toSig σs l2) : HEq l1 l2 := by
  subst h
  exact heq_of_eq (toSig_inj τs l1 l2 hs)

/-- The rewind accumulator computes the reversal of the input appended to the
accumulator, at the level of type shapes. -/
theorem rewindT_spec : ∀ (τs σs : List Type), rewindT τs σs = τs.reverse ++ σs
  | [], σs => by simp [rewindT]
  | τ :: τs, σs => by simp [rewindT, rewindT_spec τs (τ :: σs)]

/-- The rewind accumulator computes the reversal of the input appended to the
accumulator, at the level of erased values. -/
theorem toSig_rewind : ∀ (τs σs : List Type) (l : HListT τs) (done : HListT σs),
    toSig (rewindT τs σs) (rewind τs σs l done) =
      (toSig τs l).reverse ++ toSig σs done
  | [], σs, _, done => by simp [rewindT, rewind, toSig]
  | τ :: τs, σs, (head, tail), done => by
    simp [rewindT, rewind, toSig, toSig_rewind τs (τ :: σs) tail (head, done)]

/-- Extending by the empty list does not change the type shape. -/
theorem extT_nil : ∀ (τs : List Type), extT τs [] = τs
  | [] => rfl
  | τ :: τs => by simp [extT, extT_nil τs]

/-- The type shape of extend is associative. -/
theorem extT_assoc : ∀ (τs σs ρs : List Type),
    extT (extT τs σs) ρs = extT τs (extT σs ρs)
  | [], _, _ => rfl
  | τ :: τs, σs, ρs => by simp [extT, extT_assoc τs σs ρs]

/-- Erasure of an extended list is the concatenation of the erasures. -/
theorem toSig_extend : ∀ (τs σs : List Type) (l1 : HListT τs) (l2 : HListT σs),
    toSig (extT τs σs) (hextend τs σs l1 l2) = toSig τs l1 ++ toSig σs l2
  | [], σs, _, l2 => by simp [extT, hextend, toSig]
  | τ :: τs, σs, (head, tail), l2 => by
    simp [extT, hextend, toSig, toSig_extend τs σs tail l2]

/-- Zipping the two projection shapes of a list of pair types recovers the
shape of the list of pairs. -/
theorem zipT_fstT_sndT : ∀ (ps : List (Type × Type)),
    zipT (fstT ps) (sndT ps) = pairedT ps
  | [] => rfl
  | (α, β) :: ps => by simp [fstT, sndT, pairedT, zipT, zipT_fstT_sndT ps]

/-- Heterogeneous equality of pairs whose first components share a type and
whose second component types are propositionally equal splits componentwise. -/
theorem prod_heq_inv (α X Y : Type) (h : X = Y) (a b : α) (x : X) (y : Y)
    (hh : HEq ((a, x) : α × X) ((b, y) : α × Y)) : a = b ∧ HEq x y := by
  subst h
  have h2 := eq_of_heq hh
  simp only [Prod.mk.injEq] at h2
  exact ⟨h2.1, heq_of_eq h2.2⟩

/-- Comparison of naturals is unchanged by adding one to both sides. -/
theorem compare_add_one (m n : Nat) : compare (m + 1) (n + 1) = compare m n := by
  rcases Nat.lt_trichotomy m n with h | h | h
  · rw [compare_lt_iff_lt.mpr h, compare_lt_iff_lt.mpr (by omega)]
  · rw [h, compare_eq_iff_eq.mpr rfl, compare_eq_iff_eq.mpr rfl]
  · rw [compare_gt_iff_gt.mpr h, compare_gt_iff_gt.mpr (by omega)]

/-- The runtime length agrees with the compile-time length constant. -/
theorem len_eq_LEN : ∀ (τs : List Type) (l : HListT τs), len τs l = LEN τs
  | [], _ => rfl
  | _ :: τs, (_, t) => by simp [len, LEN, len_eq_LEN τs t]

/-- Index addition adds nesting depths. -/
theorem depth_idxAdd : ∀ a b : Idx, depth (idxAdd a b) = depth a + depth b
  | .here, b => by simp [idxAdd, depth]
  | .there u, b => by
    simp only [idxAdd, depth, depth_idxAdd u b]
    omega

/-- Index comparison agrees with comparison of the encoded naturals. -/
theorem idxPartialCmp_depth : ∀ a b : Idx,
    idxPartialCmp a b = some (compare (depth a) (depth b))
  | .here, .here => by decide
  | .here, .there t => by
    have h : compare (depth Idx.here) (depth (Idx.there t)) = .lt :=
      compare_lt_iff_lt.mpr (by simp [depth])
    simp [idxPartialCmp, h]
  | .there u, .here => by
    have h : compare (depth (Idx.there u)) (depth Idx.here) = .gt :=
      compare_gt_iff_gt.mpr (by simp [depth])
    simp [idxPartialCmp, h]
  | .there u, .there t => by
    simp only [idxPartialCmp, depth, compare_add_one]
    exact idxPartialCmp_depth u t

/-- C1: the runtime length counts cons cells, zero for `Nil` and one plus
the tail length for `Cons`; and for every fully known list shape the
compile-time constant `LEN` equals the runtime length of any value of that
shape. -/
theorem c1_length_invariant :
    (len [] hnil = 0) ∧
    (∀ (τ : Type) (τs : List Type) (head : τ) (tail : HListT τs),
      len (τ :: τs) (head, tail) = 1 + len τs tail) ∧
    (∀ (τs : List Type) (l : HListT τs), len τs l = LEN τs) :=
  ⟨rfl, fun _ _ _ _ => rfl, len_eq_LEN⟩

/-- C2: reversing twice is the identity, where reverse is the accumulator
helper rewind started from the empty accumulator.  The shape of the double
reversal equals the original shape, and over that shape equality the values
agree. -/
theorem c2_reverse_involution (τs : List Type) (l : HListT τs) :
    rewindT (rewindT τs []) [] = τs ∧
    HEq (hreverse (rewindT τs []) (hreverse τs l)) l := by
  have hty : rewindT (rewindT τs []) [] = τs := by
    simp [rewindT_spec]
  refine ⟨hty, heq_of_toSig _ _ hty _ _ ?_⟩
  simp [hreverse, toSig_rewind, toSig, hnil]

/-- C9: positional indices are Peano naturals via nesting depth.  Addition
satisfies the defining equations and adds depths; subtraction satisfies the
defining equations wherever implemented; comparison coincides with the
comparison of encoded naturals. -/
theorem c9_index_arithmetic :
    (∀ b : Idx, idxAdd .here b = b) ∧
    (∀ u b : Idx, idxAdd (.there u) b = .there (idxAdd u b)) ∧
    (∀ a b : Idx, depth (idxAdd a b) = depth a + depth b) ∧
    (∀ t : Idx, idxSub (.there t) .here = some (.there t)) ∧
    (∀ u t : Idx, idxSub (.there u) (.there t) = idxSub u t) ∧
    (∀ a b : Idx, idxPartialCmp a b = some (compare (depth a) (depth b))) :=
  ⟨fun _ => rfl, fun _ _ => rfl, depth_idxAdd, fun _ => rfl, fun _ _ => rfl,
    idxPartialCmp_depth⟩

/-- C10: extend has `Nil` as a two-sided identity and is associative, up to
the corresponding equalities of type shapes. -/
theorem c10_extend_monoid :
    (∀ (σs : List Type) (l : HListT σs), hextend [] σs hnil l = l) ∧
    (∀ (τs : List Type) (l : HListT τs),
      extT τs [] = τs ∧ HEq (hextend τs [] l hnil) l) ∧
    (∀ (τs σs ρs : List Type) (a : HListT τs) (b : HListT σs) (c : HListT ρs),
      extT (extT τs σs) ρs = extT τs (extT σs ρs) ∧
      HEq (hextend (extT τs σs) ρs (hextend τs σs a b) c)
        (hextend τs (extT σs ρs) a (hextend σs ρs b c))) := by
  refine ⟨fun σs l => rfl, fun τs l => ⟨extT_nil τs, ?_⟩,
    fun τs σs ρs a b c => ⟨extT_assoc τs σs ρs, ?_⟩⟩
  · exact heq_of_toSig _ _ (extT_nil τs) _ _ (by simp [toSig_extend, toSig, hnil])
  · exact heq_of_toSig _ _ (extT_assoc τs σs ρs) _ _ (by simp [toSig_extend])

/-- C3: appending a value `x` at the end of a list `l` and then popping the
last element yields exactly `x` and leaves `l` unchanged, for every list
and every value. -/
theorem c3_append_pop : ∀ (τs : List Type) (α : Type) (l : HListT τs) (x : α),
    hpop (appT τs α) (happend τs α l x) = some (⟨α, x⟩, ⟨τs, l⟩)
  | [], _, _, _ => rfl
  | [_], _, (_, _), _ => rfl
  | τ :: τ2 :: τs, α, (head, tail), x => by
    have ih := c3_append_pop (τ2 :: τs) α tail x
    simp only [appT, happend] at ih ⊢
    simp only [hpop, ih]

/-- C4: zipping two lists of the same shape and unzipping the result
recovers the original pair of lists.  Equal-length pairs of shapes are
exactly the first and second projections of a list `ps` of pair types, and
`z` is the zip result transported along the shape equality. -/
theorem c4_zip_unzip : ∀ (ps : List (Type × Type)) (l1 : HListT (fstT ps))
    (l2 : HListT (sndT ps)) (z : HListT (pairedT ps)),
    HEq z (hzip (fstT ps) (sndT ps) l1 l2) → hunzip ps z = (l1, l2)
  | [], _, _, _, _ => rfl
  | (α, β) :: ps, (a, t1), (b, t2), (hd, tl), hh => by
    have hty : HListT (pairedT ps) = HListT (zipT (fstT ps) (sndT ps)) :=
      congrArg HListT (zipT_fstT_sndT ps).symm
    simp only [fstT, sndT, pairedT, zipT, hzip] at hh
    obtain ⟨hhd, htl⟩ := prod_heq_inv (α × β) _ _ hty hd (a, b) tl
      (hzip (fstT ps) (sndT ps) t1 t2) hh
    have ih := c4_zip_unzip ps t1 t2 tl htl
    simp [hunzip, ih, hhd]

/-- C4 witness: a concrete instance of the zip and unzip round trip. -/
theorem c4_zip_unzip_witness :
    hunzip [(ℤ, Bool)] (((1 : ℤ), true), hnil) = (((1 : ℤ), hnil), (true, hnil)) :=
  c4_zip_unzip [(ℤ, Bool)] ((1 : ℤ), hnil) (true, hnil) (((1 : ℤ), true), hnil) HEq.rfl

/-- C5: flatten removes exactly one nesting level: it maps `Nil` to `Nil`
and a cons to the head extended with the flattened tail; on the three-level
example it first yields the list of five two-element rows, and flattening
twice yields the fully linear ten-element list. -/
theorem c5_flatten_one_level :
    (hflatten [] hnil = hnil) ∧
    (∀ (τs : List Type) (ss : List (List Type)) (head : HListT τs)
      (tail : HListT (nestT ss)),
      hflatten (τs :: ss) (head, tail) = hextend τs (flatT ss) head (hflatten ss tail)) ∧
    (hflatten d3Shape d3 = d2) ∧
    (hflatten d2Shape (hflatten d3Shape d3) = d1) :=
  ⟨rfl, fun _ _ _ _ => rfl, rfl, rfl⟩

/-- C6: on the list `[1, false, 42.0]` with initial accumulator `1.0` and
the per-position folder functions of the scenario, the left fold yields
`42.0` while the right fold yields `9001.0`. -/
theorem c6_fold_scenario :
    hfold ℚ [ℤ, Bool, ℚ] foldList 1 foldFns = 42 ∧
    hrfold ℚ [ℤ, Bool, ℚ] foldList 1 foldFns = 9001 := by
  constructor <;> norm_num [hfold, hrfold, foldList, foldFns]

/-- C8: on the list `[1, 2.0, true, "hello world"]`, requesting the types
`[&str, f32]` (located at positions 3 and 1) returns
`["hello world", 2.0]` in the requested order, and the threaded
`remove_many` leaves the remainder `[1, true]`. -/
theorem c8_get_many_scenario :
    hgetMany [3, 1] [ℤ, ℚ, Bool, String] srcList =
      ("hello world", ((2 : ℚ), hnil)) ∧
    hremoveMany [3, 1] [ℤ, ℚ, Bool, String] srcList =
      (("hello world", ((2 : ℚ), hnil)), ((1 : ℤ), (true, hnil))) :=
  ⟨rfl, rfl⟩

/-- Converting an iterator with exactly as many elements as slots succeeds
with the elements in iteration order. -/
theorem fromIter_exact : ∀ (A : Type) (l : List A),
    fromIter A l.length l = Except.ok (ofList A l)
  | _, [] => rfl
  | A, x :: xs => by
    simp [fromIter, ofList, List.length_cons, fromIter_exact A xs, Except.map]

/-- Converting an iterator with fewer elements than slots panics. -/
theorem fromIter_short : ∀ (A : Type) (n : Nat) (l : List A), l.length < n →
    fromIter A n l = Except.error "not enough elements in the iterator"
  | _, _ + 1, [], _ => rfl
  | A, n + 1, _ :: xs, h => by
    have hx : xs.length < n := by
      simp only [List.length_cons] at h
      omega
    simp [fromIter, fromIter_short A n xs hx, Except.map]
  | _, 0, _, h => by simp at h

/-- Converting an iterator with more elements than slots panics. -/
theorem fromIter_long : ∀ (A : Type) (n : Nat) (l : List A), n < l.length →
    fromIter A n l = Except.error "too many elements in the iterator"
  | _, 0, _ :: _, _ => rfl
  | A, n + 1, _ :: xs, h => by
    have hx : n < xs.length := by
      simp only [List.length_cons] at h
      omega
    simp [fromIter, fromIter_long A n xs hx, Except.map]
  | _, _, [], h => by simp at h

/-- C7: collecting an iterator into a fixed shape of `n` same-typed slots
succeeds exactly when the iterator yields `n` elements, producing them in
iteration order; with fewer elements it panics with "not enough elements in
the iterator", and with more it panics with "too many elements in the
iterator". -/
theorem c7_from_iterator (A : Type) (n : Nat) (l : List A) :
    (fromIter A l.length l = Except.ok (ofList A l)) ∧
    (l.length < n →
      fromIter A n l = Except.error "not enough elements in the iterator") ∧
    (n < l.length →
      fromIter A n l = Except.error "too many elements in the iterator") :=
  ⟨fromIter_exact A l, fromIter_short A n l, fromIter_long A n l⟩

/-- C7 witness: collecting five 42s into a 5-slot list succeeds, while
collecting one or ten elements into that shape panics. -/
theorem c7_from_iterator_witness :
    (fromIter ℤ 5 (List.replicate 5 42) =
      Except.ok (ofList ℤ (List.replicate 5 42))) ∧
    (fromIter ℤ 5 (List.replicate 1 42) =
      Except.error "not enough elements in the iterator") ∧
    (fromIter ℤ 5 (List.replicate 10 42) =
      Except.error "too many elements in the iterator") :=
  ⟨(c7_from_iterator ℤ 5 (List.replicate 5 (42 : ℤ))).1,
    (c7_from_iterator ℤ 5 (List.replicate 1 (42 : ℤ))).2.1 (by simp),
    (c7_from_iterator ℤ 5 (List.replicate 10 (42 : ℤ))).2.2 (by simp)⟩

end Hlist2
